import Mathlib

set_option maxRecDepth 4000

/-!
Shallow embedding of the consensus/ledger core of the
national-budget-blockchain repository (Python), together with proofs of
the behavioural claims about it.

The embedding translates, from the source:
* `blockchain/core/hash.py`   — SHA-256 over the canonical (JSON, key-sorted,
  signature-stripped) encoding of transactions and block headers;
* `blockchain/core/merkle.py` — the Merkle tree, proof generation and
  proof verification;
* `blockchain/core/types.py`  — the data model;
* `blockchain/core/state.py`  — the account/DPA state machine;
* `blockchain/core/tx_rules.py`, `blockchain/core/ledger.py` — mempool
  admission, block proposal, block commitment;
* `blockchain/consensus/rotation.py` — round-robin proposer rotation.

Python `dict`s are modelled as insertion-ordered association lists with
unique keys (lookup and update act on the first matching key, which is the
only one); object mutation is modelled by re-reading the state after every
update, which reproduces Python's aliasing semantics.  `time.time()` is
modelled by passing the timestamp as an explicit argument.
-/

namespace Budget

/-! ## SHA-256 (hashlib.sha256, hexdigest), over UTF-8 bytes -/

namespace SHA256

/-- 2^32, the word modulus. -/
def M32 : Nat := 4294967296

/-- Rotate a word right by n bits, truncated to 32 bits. -/
def rotr (n x : Nat) : Nat := ((x >>> n) ||| (x <<< (32 - n))) % M32

def bigS0 (x : Nat) : Nat := rotr 2 x ^^^ rotr 13 x ^^^ rotr 22 x

def bigS1 (x : Nat) : Nat := rotr 6 x ^^^ rotr 11 x ^^^ rotr 25 x

def smallS0 (x : Nat) : Nat := rotr 7 x ^^^ rotr 18 x ^^^ (x >>> 3)

def smallS1 (x : Nat) : Nat := rotr 17 x ^^^ rotr 19 x ^^^ (x >>> 10)

def ch (x y z : Nat) : Nat := (x &&& y) ^^^ ((x ^^^ 4294967295) &&& z)

def maj (x y z : Nat) : Nat := (x &&& y) ^^^ (x &&& z) ^^^ (y &&& z)

/-- The 64 round constants of FIPS 180-4, written in decimal. -/
def K : List Nat :=
  [1116352408, 1899447441, 3049323471, 3921009573, 961987163,
   1508970993, 2453635748, 2870763221, 3624381080, 310598401,
   607225278, 1426881987, 1925078388, 2162078206, 2614888103,
   3248222580, 3835390401, 4022224774, 264347078, 604807628,
   770255983, 1249150122, 1555081692, 1996064986, 2554220882,
   2821834349, 2952996808, 3210313671, 3336571891, 3584528711,
   113926993, 338241895, 666307205, 773529912, 1294757372,
   1396182291, 1695183700, 1986661051, 2177026350, 2456956037,
   2730485921, 2820302411, 3259730800, 3345764771, 3516065817,
   3600352804, 4094571909, 275423344, 430227734, 506948616,
   659060556, 883997877, 958139571, 1322822218, 1537002063,
   1747873779, 1955562222, 2024104815, 2227730452, 2361852424,
   2428436474, 2756734187, 3204031479, 3329325298]

/-- The initial hash state of FIPS 180-4, written in decimal. -/
def H0 : List Nat :=
  [1779033703, 3144134277, 1013904242, 2773480762,
   1359893119, 2600822924, 528734635, 1541459225]

/-- Big-endian byte expansion, `n` bytes. -/
def toBytesBE : Nat → Nat → List Nat
  | 0, _ => []
  | n + 1, v => toBytesBE n (v >>> 8) ++ [v % 256]

/-- SHA-256 message padding: 0x80, zeros to 56 mod 64, 8-byte big-endian bit length. -/
def padMessage (msg : List Nat) : List Nat :=
  let k := (119 - msg.length % 64) % 64
  msg ++ [128] ++ List.replicate k 0 ++ toBytesBE 8 (msg.length * 8)

/-- Big-endian 32-bit words from bytes. -/
def toWords : List Nat → List Nat
  | b0 :: b1 :: b2 :: b3 :: rest =>
      ((b0 <<< 24) ||| (b1 <<< 16) ||| (b2 <<< 8) ||| b3) :: toWords rest
  | _ => []

/-- Split into 64-byte chunks; the count is known, so we recurse on it
(the padded message length is a multiple of 64). -/
def chunksGo : Nat → List Nat → List (List Nat)
  | 0, _ => []
  | n + 1, l => l.take 64 :: chunksGo n (l.drop 64)

def chunks64 (l : List Nat) : List (List Nat) :=
  chunksGo (l.length / 64) l

/-- Message-schedule extension: run `n` more steps, newest word first. -/
def extendLoop : Nat → List Nat → List Nat
  | 0, wrev => wrev
  | n + 1, wrev =>
      let w2 := wrev.getD 1 0
      let w7 := wrev.getD 6 0
      let w15 := wrev.getD 14 0
      let w16 := wrev.getD 15 0
      extendLoop n (((smallS1 w2 + w7 + smallS0 w15 + w16) % M32) :: wrev)

/-- The 64-entry message schedule of one 16-word block. -/
def schedule (block : List Nat) : List Nat :=
  (extendLoop 48 block.reverse).reverse

/-- One round of the compression function on the 8-word working state. -/
def compressStep (s : List Nat) (k w : Nat) : List Nat :=
  match s with
  | [a, b, c, d, e, f, g, h] =>
      let t1 := (h + bigS1 e + ch e f g + k + w) % M32
      let t2 := (bigS0 a + maj a b c) % M32
      [(t1 + t2) % M32, a, b, c, (d + t1) % M32, e, f, g]
  | _ => s

/-- Process one 64-byte chunk, updating the 8-word hash state. -/
def processChunk (hs : List Nat) (chunk : List Nat) : List Nat :=
  let w := schedule (toWords chunk)
  let final := (K.zip w).foldl (fun s kw => compressStep s kw.1 kw.2) hs
  (hs.zip final).map (fun p => (p.1 + p.2) % M32)

/-- SHA-256 of a byte list: the 8-word digest. -/
def sha256Words (msg : List Nat) : List Nat :=
  (chunks64 (padMessage msg)).foldl processChunk H0

/-- Lowercase hex digit. -/
def hexDigit (n : Nat) : Char :=
  if n < 10 then Char.ofNat (48 + n) else Char.ofNat (87 + n)

/-- A 32-bit word as 8 lowercase hex characters. -/
def wordHex (w : Nat) : List Char :=
  (List.range 8).map (fun i => hexDigit ((w >>> (28 - 4 * i)) &&& 15))

/-- hexdigest of a byte list. -/
def sha256HexBytes (msg : List Nat) : String :=
  String.mk ((sha256Words msg).map wordHex).flatten

/-- UTF-8 encoding of one code point. -/
def utf8Char (c : Nat) : List Nat :=
  if c < 128 then [c]
  else if c < 2048 then [192 + c / 64, 128 + c % 64]
  else if c < 65536 then [224 + c / 4096, 128 + (c / 64) % 64, 128 + c % 64]
  else [240 + c / 262144, 128 + (c / 4096) % 64, 128 + (c / 64) % 64, 128 + c % 64]

/-- UTF-8 bytes of a string (Python str.encode()). -/
def strBytes (s : String) : List Nat :=
  (s.data.map (fun c => utf8Char c.toNat)).flatten

end SHA256

/-- hashlib.sha256(s.encode()).hexdigest(). -/
def sha256Hex (s : String) : String :=
  SHA256.sha256HexBytes (SHA256.strBytes s)

example : sha256Hex "abc" = "ba7816bf8f01cfea414140de5dae2223b00361a396177a9cb410ff61f20015ad" := by
  decide

/-! ## String helpers (structural, so that they reduce in the kernel) -/

/-- Character-list version of `startswith`. -/
def listStarts : List Char → List Char → Bool
  | [], _ => true
  | _ :: _, [] => false
  | p :: ps, c :: cs => p == c && listStarts ps cs

/-- Python str.startswith. -/
def strStarts (s pat : String) : Bool := listStarts pat.data s.data

/-- Python s.split(":") on character lists, with an accumulator. -/
def splitColonGo : List Char → List Char → List String
  | [], acc => [String.mk acc.reverse]
  | c :: cs, acc =>
      if c = ':' then String.mk acc.reverse :: splitColonGo cs []
      else splitColonGo cs (c :: acc)

/-- Python tx.data.split(":")[1] (the branch guards guarantee a colon exists). -/
def splitSecond (s : String) : String := (splitColonGo s.data []).getD 1 ""

/-- Decimal digits of a positive number, most significant first. -/
def natReprGo : Nat → Nat → List Char
  | _, 0 => []
  | 0, _ => []
  | fuel + 1, n => natReprGo fuel (n / 10) ++ [Char.ofNat (48 + n % 10)]

def natRepr (n : Nat) : String :=
  if n = 0 then "0" else String.mk (natReprGo (n + 1) n)

/-- Python repr of an int, as json.dumps prints it. -/
def intRepr : Int → String
  | Int.ofNat n => natRepr n
  | Int.negSucc n => "-" ++ natRepr (n + 1)

/-! ## json.dumps(.., sort_keys=True) for the two record shapes that get hashed -/

/-- Four lowercase hex digits (the \uXXXX form). -/
def hex4 (n : Nat) : List Char :=
  (List.range 4).map (fun i => SHA256.hexDigit ((n >>> (12 - 4 * i)) &&& 15))

/-- json.dumps escaping of one character (ensure_ascii default: everything
outside 0x20-0x7e is escaped, with surrogate pairs above 0xffff). -/
def jsonEscapeChar (c : Char) : List Char :=
  let n := c.toNat
  if c = '"' then ['\\', '"']
  else if c = '\\' then ['\\', '\\']
  else if c = '\n' then ['\\', 'n']
  else if c = '\r' then ['\\', 'r']
  else if c = '\t' then ['\\', 't']
  else if n = 8 then ['\\', 'b']
  else if n = 12 then ['\\', 'f']
  else if n < 32 || n > 126 then
    if n < 65536 then '\\' :: 'u' :: hex4 n
    else
      ('\\' :: 'u' :: hex4 (55296 + (n - 65536) / 1024)) ++
        ('\\' :: 'u' :: hex4 (56320 + (n - 65536) % 1024))
  else [c]

/-- A JSON string literal. -/
def jsonStr (s : String) : String :=
  "\"" ++ String.mk (s.data.map jsonEscapeChar).flatten ++ "\""

/-- An Optional[str] field: null or a string literal. -/
def jsonOptStr : Option String → String
  | none => "null"
  | some s => jsonStr s

example : jsonStr "x\n" = "\"x\\n\"" := by decide

/-! ## Data model (blockchain/core/types.py, blockchain/identity/validator.py) -/

structure Transaction where
  sender : String
  recipient : String
  amount : Int
  data : Option String := none
  nonce : Int := 0
  signature : Option String := none
deriving DecidableEq, Repr

structure BlockHeader where
  prev_hash : String
  merkle_root : Option String
  timestamp : String
  validator : String
  nonce : Int := 0
  signature : Option String := none
deriving DecidableEq, Repr

structure Block where
  header : BlockHeader
  transactions : List Transaction
deriving DecidableEq, Repr

structure DigitalPublicAsset where
  asset_id : String
  owner : String
  amount : Int
  data : Option (List (String × String)) := none
deriving DecidableEq, Repr

structure Account where
  address : String
  balance : Int := 0
  dpas : List (String × DigitalPublicAsset) := []
deriving DecidableEq, Repr

structure Validator where
  validator_id : String
  public_key : String
  stake : Int := 0
  is_active : Bool := true
deriving DecidableEq, Repr

/-! ## Canonical hashing (blockchain/core/hash.py) -/

/-- hash_data: SHA-256 hexdigest of the UTF-8 encoding. -/
def hash_data (data : String) : String := sha256Hex data

/-- The signature-stripped, key-sorted JSON encoding of a transaction
(keys in sorted order: amount, data, nonce, recipient, sender). -/
def txCanonical (tx : Transaction) : String :=
  "\x7b\"amount\": " ++ intRepr tx.amount ++
    ", \"data\": " ++ jsonOptStr tx.data ++
    ", \"nonce\": " ++ intRepr tx.nonce ++
    ", \"recipient\": " ++ jsonStr tx.recipient ++
    ", \"sender\": " ++ jsonStr tx.sender ++ "\x7d"

def hash_transaction (tx : Transaction) : String := hash_data (txCanonical tx)

/-- The signature-stripped, key-sorted JSON encoding of a block header
(keys in sorted order: merkle_root, nonce, prev_hash, timestamp, validator). -/
def headerCanonical (h : BlockHeader) : String :=
  "\x7b\"merkle_root\": " ++ jsonOptStr h.merkle_root ++
    ", \"nonce\": " ++ intRepr h.nonce ++
    ", \"prev_hash\": " ++ jsonStr h.prev_hash ++
    ", \"timestamp\": " ++ jsonStr h.timestamp ++
    ", \"validator\": " ++ jsonStr h.validator ++ "\x7d"

def hash_block_header (h : BlockHeader) : String := hash_data (headerCanonical h)

example :
    txCanonical { sender := "A", recipient := "B", amount := 50, nonce := 1 } =
      "\x7b\"amount\": 50, \"data\": null, \"nonce\": 1, \"recipient\": \"B\", \"sender\": \"A\"\x7d" := by
  decide

example :
    hash_transaction { sender := "A", recipient := "B", amount := 50, nonce := 1 } =
      "ce43cdb13c157b957d794731f2c7ef98d2fccba68b4d9e5b283d36ed07b1339e" := by
  decide

example :
    hash_block_header
        { prev_hash := String.mk (List.replicate 64 '0'), merkle_root := none,
          timestamp := "1.0", validator := "genesis" } =
      "3f2fd0dda810d5041b46a5f51d2ba9b08ab32afd2a75fa897c862d32b081848d" := by
  decide

/-! ## Merkle tree (blockchain/core/merkle.py)

`MerkleTree.__init__` re-hashes every input item to form the leaf level
(`self.leaves = [sha256(d.encode()).hexdigest() for d in data]`) and builds
the root bottom-up, duplicating the last node of every odd level.  The
mutation `nodes.append(nodes[-1])` inside `_build_tree` aliases
`self.leaves`, so the stored leaf level is the even-padded one; padding
duplicates the last element, so membership and first-occurrence index over
the stored level coincide with those over the unpadded level, which is how
`get_proof` is rendered here.  The level count is bounded by the level
length, which serves as structural fuel. -/

namespace MerkleTree

/-- The side a proof sibling occupies ('left' / 'right' in the source). -/
inductive Side where
  | left
  | right
deriving DecidableEq, Repr

/-- Parent hash of two adjacent nodes. -/
def hashPair (a b : String) : String := sha256Hex (a ++ b)

/-- Duplicate the last node of an odd level (nodes.append(nodes[-1])). -/
def padLevel (l : List String) : List String :=
  if l.length % 2 = 1 then l ++ [l.getLastD ""] else l

/-- Combine adjacent pairs of an (even-length) level. -/
def pairUp : List String → List String
  | [] => []
  | [_] => []
  | a :: b :: rest => hashPair a b :: pairUp rest

/-- The leaf level: each data item hashed once more. -/
def leaves (data : List String) : List String := data.map sha256Hex

/-- MerkleTree._build_tree, with fuel (one unit per level; the number of
levels is bounded by the length of the level the recursion starts from). -/
def buildGo : Nat → List String → String
  | _, [x] => x
  | 0, l => l.headD ""
  | fuel + 1, l => buildGo fuel (pairUp (padLevel l))

/-- The root over a non-empty leaf level. -/
def buildTree (l : List String) : String := buildGo l.length l

/-- MerkleTree(data).get_merkle_root(): None for empty input. -/
def get_merkle_root (data : List String) : Option String :=
  if data = [] then none else some (buildTree (leaves data))

/-- The proof-walk of `get_proof`, one unit of fuel per level. -/
def proofGo : Nat → List String → Nat → List (String × Side)
  | 0, _, _ => []
  | fuel + 1, level, index =>
      if level.length ≤ 1 then []
      else
        let lvl := padLevel level
        let isLeft := index % 2 = 0
        let sib := if isLeft then lvl.getD (index + 1) "" else lvl.getD (index - 1) ""
        (sib, if isLeft then Side.right else Side.left) :: proofGo fuel (pairUp lvl) (index / 2)

/-- MerkleTree(data).get_proof(data_hash): None unless data_hash is a stored
leaf; otherwise the (sibling, side) walk from that leaf to the root. -/
def get_proof (data : List String) (data_hash : String) : Option (List (String × Side)) :=
  let lvs := leaves data
  if data_hash ∈ lvs then some (proofGo lvs.length lvs (lvs.indexOf data_hash)) else none

/-- The upward recomputation inside verify_proof. -/
def foldProof (data_hash : String) (proof : List (String × Side)) : String :=
  proof.foldl
    (fun computed sd =>
      match sd.2 with
      | Side.left => sha256Hex (sd.1 ++ computed)
      | Side.right => sha256Hex (computed ++ sd.1))
    data_hash

/-- MerkleTree.verify_proof. -/
def verify_proof (data_hash : String) (proof : List (String × Side)) (root_hash : String) : Bool :=
  foldProof data_hash proof == root_hash

end MerkleTree

example : MerkleTree.get_proof ["a"] "a" = none := by decide

example :
    (MerkleTree.get_proof ["a", "b", "c"] (sha256Hex "b")).map
        (fun p =>
          MerkleTree.verify_proof (sha256Hex "b") p
            ((MerkleTree.get_merkle_root ["a", "b", "c"]).getD "")) =
      some true := by
  decide

/-! ## State machine (blockchain/core/state.py)

Python dicts of mutable objects are modelled as insertion-ordered
association lists; every object mutation re-reads the current state, which
reproduces aliasing (e.g. a self-transfer mutates one shared Account). -/

/-- First-occurrence lookup (the only occurrence: dict keys are unique). -/
def lookupA {α : Type} : List (String × α) → String → Option α
  | [], _ => none
  | (k', v) :: rest, k => if k' = k then some v else lookupA rest k

/-- Python dict assignment d[k] = v: replace in place, else append. -/
def setA {α : Type} : List (String × α) → String → α → List (String × α)
  | [], k, v => [(k, v)]
  | (k', v') :: rest, k, v =>
      if k' = k then (k', v) :: rest else (k', v') :: setA rest k v

/-- In-place mutation of the object stored under an existing key. -/
def mapA {α : Type} : List (String × α) → String → (α → α) → List (String × α)
  | [], _, _ => []
  | (k', v) :: rest, k, f =>
      if k' = k then (k', f v) :: rest else (k', v) :: mapA rest k f

structure StateManager where
  accounts : List (String × Account) := []
  dpa_registry : List (String × DigitalPublicAsset) := []
  total_supply : Int := 0
deriving DecidableEq, Repr

namespace StateManager

/-- A fresh StateManager(). -/
def initial : StateManager := {}

/-- get_account: return the account, creating it (balance 0) if absent. -/
def get_account (st : StateManager) (address : String) : StateManager × Account :=
  match lookupA st.accounts address with
  | some a => (st, a)
  | none =>
      let a : Account := { address := address }
      ({ st with accounts := st.accounts ++ [(address, a)] }, a)

/-- The balance field of the (present) account under a key. -/
def balanceOf (st : StateManager) (address : String) : Int :=
  match lookupA st.accounts address with
  | some a => a.balance
  | none => 0

/-- Mutate the balance of the account object stored under a key. -/
def updBalance (st : StateManager) (address : String) (f : Int → Int) : StateManager :=
  { st with accounts := mapA st.accounts address (fun a => { a with balance := f a.balance }) }

/-- The DPA held by an account under an asset id, if any. -/
def dpaOf (st : StateManager) (address dpa_id : String) : Option DigitalPublicAsset :=
  match lookupA st.accounts address with
  | some a => lookupA a.dpas dpa_id
  | none => none

/-- Mutate the amount of the DPA object an account holds under an asset id. -/
def updDpaAmount (st : StateManager) (address dpa_id : String) (f : Int → Int) : StateManager :=
  { st with
    accounts :=
      mapA st.accounts address
        (fun a => { a with dpas := mapA a.dpas dpa_id (fun d => { d with amount := f d.amount }) }) }

/-- Store a DPA object under an account's asset id (dict assignment). -/
def setDpa (st : StateManager) (address dpa_id : String) (d : DigitalPublicAsset) : StateManager :=
  { st with accounts := mapA st.accounts address (fun a => { a with dpas := setA a.dpas dpa_id d }) }

/-- The data-field dispatch string: None is falsy, so it selects the
currency branch exactly as the empty string does. -/
def txData (tx : Transaction) : String := tx.data.getD ""

/-- The DPA-issuance block: build new_dpa, ensure the recipient account,
store the record under the asset id (recipient_account.dpas[dpa_id] =
new_dpa, a dict assignment that overwrites), bump total_supply. -/
def issueTx (st : StateManager) (tx : Transaction) : StateManager :=
  let dpa_id := splitSecond (txData tx)
  let new_dpa : DigitalPublicAsset :=
    { asset_id := dpa_id, owner := tx.recipient, amount := tx.amount,
      data := some [("source_tx", tx.sender)] }
  let st1 := (st.get_account tx.recipient).1
  let st2 := st1.setDpa tx.recipient dpa_id new_dpa
  { st2 with total_supply := st2.total_supply + tx.amount }

/-- The DPA-transfer block: ensure both accounts, require the sender to
hold enough of the asset, decrement the sender's holding, then merge into
(or create) the recipient's holding; otherwise leave the state unchanged. -/
def dpaTransferTx (st : StateManager) (tx : Transaction) : StateManager :=
  let dpa_id := splitSecond (txData tx)
  let st1 := (st.get_account tx.sender).1
  let st2 := (st1.get_account tx.recipient).1
  match st2.dpaOf tx.sender dpa_id with
  | some d =>
      if d.amount ≥ tx.amount then
        let st3 := st2.updDpaAmount tx.sender dpa_id (fun a => a - tx.amount)
        match st3.dpaOf tx.recipient dpa_id with
        | some _ => st3.updDpaAmount tx.recipient dpa_id (fun a => a + tx.amount)
        | none =>
            let dataVal := (st3.dpaOf tx.sender dpa_id).bind (fun dd => dd.data)
            st3.setDpa tx.recipient dpa_id
              { asset_id := dpa_id, owner := tx.recipient, amount := tx.amount, data := dataVal }
      else st2
  | none => st2

/-- The plain currency-transfer block: ensure both accounts, require a
sufficient sender balance, move tx.amount between the balance fields;
otherwise leave the state unchanged. -/
def currencyTx (st : StateManager) (tx : Transaction) : StateManager :=
  let st1 := (st.get_account tx.sender).1
  let st2 := (st1.get_account tx.recipient).1
  if st2.balanceOf tx.sender ≥ tx.amount then
    let st3 := st2.updBalance tx.sender (fun b => b - tx.amount)
    st3.updBalance tx.recipient (fun b => b + tx.amount)
  else st2

/-- process_transaction: the three data-prefix branches of the source,
tested in source order. -/
def process_transaction (st : StateManager) (tx : Transaction) : StateManager :=
  if strStarts (txData tx) "issue:" then issueTx st tx
  else if strStarts (txData tx) "transfer:" then dpaTransferTx st tx
  else currencyTx st tx

/-- commit_block: process every transaction of the block in order. -/
def commit_block (st : StateManager) (b : Block) : StateManager :=
  b.transactions.foldl process_transaction st

end StateManager

/-! ## Transaction admission (blockchain/core/tx_rules.py) -/

namespace TransactionValidator

/-- validate_transaction: replay guard (same sender and nonce already in the
mempool), positive amount, non-empty addresses.  Balances are not
consulted: the function sees only the mempool and the candidate. -/
def validate_transaction (mempool : List (String × Transaction)) (tx : Transaction) : Bool :=
  if (mempool.map Prod.snd).any (fun t => t.sender == tx.sender && t.nonce == tx.nonce) then false
  else if tx.amount ≤ 0 then false
  else if tx.sender = "" ∨ tx.recipient = "" then false
  else true

end TransactionValidator

/-! ## Proposer rotation (blockchain/consensus/rotation.py) -/

/-- Lexicographic comparison of code-point lists (Python string <=). -/
def lexLe : List Char → List Char → Bool
  | [], _ => true
  | _ :: _, [] => false
  | a :: as, b :: bs =>
      if a.toNat < b.toNat then true
      else if b.toNat < a.toNat then false
      else lexLe as bs

/-- Python string comparison, as sorted() uses on the validator_id key. -/
def strLeb (a b : String) : Bool := lexLe a.data b.data

/-- The sort key relation of ProposerRotation: ascending validator_id. -/
def idLe (v w : Validator) : Prop := strLeb v.validator_id w.validator_id = true

instance : DecidableRel idLe := fun v w => instDecidableEqBool _ _

/-- sorted(validators, key=lambda v: v.validator_id): a stable ascending
sort; insertion sort with a non-strict key comparison is stable, matching
Python's Timsort on this key. -/
def sortValidators (vs : List Validator) : List Validator :=
  List.insertionSort idLe vs

instance : Inhabited Validator := ⟨{ validator_id := "", public_key := "" }⟩

structure ProposerRotation where
  validators : List Validator
deriving DecidableEq, Repr

namespace ProposerRotation

/-- ProposerRotation.__init__: store the sorted validator list. -/
def init (validators : List Validator) : ProposerRotation :=
  ⟨sortValidators validators⟩

/-- get_current_proposer: None when no validators, otherwise the id at
index (block_height - 1) % N of the sorted list (Python % is Euclidean
for a positive modulus, as Int.emod is). -/
def get_current_proposer (r : ProposerRotation) (block_height : Int) : Option String :=
  if r.validators = [] then none
  else
    let proposer_index : Int := (block_height - 1) % (r.validators.length : Int)
    some (r.validators.getD proposer_index.toNat default).validator_id

end ProposerRotation

/-! ## Block assembly and validation (blockchain/core/block.py) -/

namespace BlockCreator

/-- create_block; `timestamp` models str(time.time()), an input the
environment supplies. -/
def create_block (prev_block_hash : String) (transactions : List Transaction)
    (validator : String) (timestamp : String) : Block :=
  let tx_hashes := transactions.map hash_transaction
  let merkle_root := MerkleTree.get_merkle_root tx_hashes
  { header :=
      { prev_hash := prev_block_hash, merkle_root := merkle_root,
        timestamp := timestamp, validator := validator },
    transactions := transactions }

/-- is_block_valid: the previous-hash link and the recomputed Merkle root. -/
def is_block_valid (block : Block) (prev_block : Block) : Bool :=
  if block.header.prev_hash ≠ hash_block_header prev_block.header then false
  else
    let tx_hashes := block.transactions.map hash_transaction
    if block.header.merkle_root ≠ MerkleTree.get_merkle_root tx_hashes then false
    else true

end BlockCreator

/-! ## Ledger (blockchain/core/ledger.py) -/

instance : Inhabited Block :=
  ⟨{ header := { prev_hash := "", merkle_root := none, timestamp := "", validator := "" },
     transactions := [] }⟩

structure LedgerState where
  chain : List Block
  mempool : List (String × Transaction)
  state_manager : StateManager
  proposer_rotation : ProposerRotation
deriving DecidableEq, Repr

namespace Ledger

/-- Ledger.__init__: the chain starts at the supplied genesis block, whose
transactions are committed to the fresh state manager; the rotation is
seeded from the registry's validator list. -/
def init (genesis_block : Block) (validators : List Validator) : LedgerState :=
  { chain := [genesis_block], mempool := [],
    state_manager := StateManager.initial.commit_block genesis_block,
    proposer_rotation := ProposerRotation.init validators }

/-- get_latest_block: the chain is never empty, so the default is inert. -/
def get_latest_block (st : LedgerState) : Block :=
  st.chain.getLastD default

/-- add_transaction: duplicate-hash guard, then validate_transaction, then
insert keyed by the canonical hash. -/
def add_transaction (st : LedgerState) (tx : Transaction) : Bool × LedgerState :=
  let tx_hash := hash_transaction tx
  if (lookupA st.mempool tx_hash).isSome then (false, st)
  else if ¬ TransactionValidator.validate_transaction st.mempool tx then (false, st)
  else (true, { st with mempool := st.mempool ++ [(tx_hash, tx)] })

/-- propose_new_block: turn gate (note: the height the source passes to the
rotation is latest.header.nonce + 1), empty-mempool gate, then assemble
from all mempool transactions and clear the mempool. -/
def propose_new_block (st : LedgerState) (proposer_id : String) (timestamp : String) :
    Option Block × LedgerState :=
  if some proposer_id ≠
      st.proposer_rotation.get_current_proposer ((get_latest_block st).header.nonce + 1) then
    (none, st)
  else
    let latest_block := get_latest_block st
    let transactions_to_include := st.mempool.map Prod.snd
    if transactions_to_include = [] then (none, st)
    else
      let new_block :=
        BlockCreator.create_block (hash_block_header latest_block.header)
          transactions_to_include proposer_id timestamp
      (some new_block, { st with mempool := [] })

/-- add_block: validate against the tip; on success append and commit. -/
def add_block (st : LedgerState) (new_block : Block) : Bool × LedgerState :=
  let latest_block := get_latest_block st
  if ¬ BlockCreator.is_block_valid new_block latest_block then (false, st)
  else
    (true,
      { st with
        chain := st.chain ++ [new_block],
        state_manager := st.state_manager.commit_block new_block })

end Ledger

/-! ## Order-theoretic facts about the sort key comparison -/

theorem lexLe_total : ∀ a b : List Char, lexLe a b = true ∨ lexLe b a = true := by
  intro a
  induction a with
  | nil => intro b; left; rfl
  | cons x xs ih =>
      intro b
      cases b with
      | nil => right; rfl
      | cons y ys =>
          by_cases hxy : x.toNat < y.toNat
          · left; simp [lexLe, hxy]
          · by_cases hyx : y.toNat < x.toNat
            · right; simp [lexLe, hyx]
            · rcases ih ys with h | h
              · left; simp [lexLe, hxy, hyx, h]
              · right; simp [lexLe, hxy, hyx, h]

theorem lexLe_cons (x y : Char) (xs ys : List Char) :
    lexLe (x :: xs) (y :: ys) = true ↔
      x.toNat < y.toNat ∨ (x.toNat = y.toNat ∧ lexLe xs ys = true) := by
  simp only [lexLe]
  by_cases h1 : x.toNat < y.toNat
  · simp [h1]
  · by_cases h2 : y.toNat < x.toNat
    · simp [h1, h2]
      omega
    · have h3 : ¬ x.toNat = y.toNat → False := by omega
      simp [h1, h2]
      omega

theorem lexLe_trans : ∀ a b c : List Char, lexLe a b = true → lexLe b c = true → lexLe a c = true := by
  intro a
  induction a with
  | nil => intro b c _ _; rfl
  | cons x xs ih =>
      intro b c hab hbc
      cases b with
      | nil => simp [lexLe] at hab
      | cons y ys =>
          cases c with
          | nil => simp [lexLe] at hbc
          | cons z zs =>
              rw [lexLe_cons] at hab hbc ⊢
              rcases hab with h1 | ⟨h1, hab'⟩ <;> rcases hbc with h2 | ⟨h2, hbc'⟩
              · left; omega
              · left; omega
              · left; omega
              · exact Or.inr ⟨by omega, ih ys zs hab' hbc'⟩

theorem lexLe_antisymm : ∀ a b : List Char, lexLe a b = true → lexLe b a = true → a = b := by
  intro a
  induction a with
  | nil =>
      intro b _ hba
      cases b with
      | nil => rfl
      | cons y ys => simp [lexLe] at hba
  | cons x xs ih =>
      intro b hab hba
      cases b with
      | nil => simp [lexLe] at hab
      | cons y ys =>
          rw [lexLe_cons] at hab hba
          rcases hab with h1 | ⟨h1, hab'⟩ <;> rcases hba with h2 | ⟨h2, hba'⟩
          · omega
          · omega
          · omega
          · have hx : x = y := Char.ext (UInt32.ext h1)
            rw [hx, ih ys hab' hba']

/-- The key relation at the String level. -/
def sLe (a b : String) : Prop := strLeb a b = true

instance : IsTotal Validator idLe := ⟨fun a b => lexLe_total _ _⟩

instance : IsTrans Validator idLe := ⟨fun _ _ _ hab hbc => lexLe_trans _ _ _ hab hbc⟩

instance : IsAntisymm String sLe :=
  ⟨fun a b hab hba => String.ext (lexLe_antisymm _ _ hab hba)⟩

theorem sortValidators_sorted (vs : List Validator) : (sortValidators vs).Sorted idLe :=
  List.sorted_insertionSort idLe vs

theorem sortValidators_perm (vs : List Validator) : (sortValidators vs).Perm vs :=
  List.perm_insertionSort idLe vs

/-- Distinct sorted permutations of the same validators carry the same
validator_id sequence (ties between equal ids are unobservable at the id
level). -/
theorem sortedIds_unique {l₁ l₂ : List Validator} (hp : l₁.Perm l₂)
    (h₁ : l₁.Sorted idLe) (h₂ : l₂.Sorted idLe) :
    l₁.map Validator.validator_id = l₂.map Validator.validator_id := by
  refine List.eq_of_perm_of_sorted (r := sLe) (hp.map _) ?_ ?_
  · exact List.pairwise_map.mpr h₁
  · exact List.pairwise_map.mpr h₂

theorem getD_map_id (l : List Validator) (i : Nat) :
    (l.map Validator.validator_id).getD i "" = (l.getD i default).validator_id := by
  induction l generalizing i with
  | nil => cases i <;> rfl
  | cons v vs ih => cases i with
      | zero => rfl
      | succ j => simpa using ih j

/-- Pointwise id agreement between the stored sorted list and any
ascending-sorted permutation of the input. -/
theorem sortValidators_id_agree {vs l : List Validator} (hperm : l.Perm vs)
    (hsort : l.Sorted idLe) (i : Nat) :
    ((sortValidators vs).getD i default).validator_id = (l.getD i default).validator_id := by
  have hids :
      (sortValidators vs).map Validator.validator_id = l.map Validator.validator_id :=
    sortedIds_unique ((sortValidators_perm vs).trans hperm.symm)
      (sortValidators_sorted vs) hsort
  rw [← getD_map_id, ← getD_map_id, hids]

/-- C8: for a non-empty validator set, in any insertion order, the rotation
returns the validator_id at index (h-1) mod N of the ascending-by-id sorted
list; it is N-periodic in the height; and it returns none on an empty set. -/
theorem C8_rotation (vs l : List Validator) (h : Int) (k : Nat)
    (hvs : vs ≠ []) (hperm : l.Perm vs) (hsort : l.Sorted idLe) :
    (ProposerRotation.init vs).get_current_proposer h =
        some ((l.getD ((h - 1) % (vs.length : Int)).toNat default).validator_id) ∧
      (ProposerRotation.init vs).get_current_proposer (h + (k : Int)) =
        (ProposerRotation.init vs).get_current_proposer (h + (k : Int) + (vs.length : Int)) ∧
      (ProposerRotation.init []).get_current_proposer h = none := by
  have hlen : (sortValidators vs).length = vs.length := (sortValidators_perm vs).length_eq
  have hne : sortValidators vs ≠ [] := by
    intro hnil
    exact hvs (List.eq_nil_of_length_eq_zero (by rw [← hlen, hnil]; rfl))
  refine ⟨?_, ?_, rfl⟩
  · simp only [ProposerRotation.init, ProposerRotation.get_current_proposer, hne, if_false,
      hlen]
    exact congrArg some (sortValidators_id_agree hperm hsort _)
  · simp only [ProposerRotation.init, ProposerRotation.get_current_proposer, hne, if_false]
    have hmod :
        (h + (k : Int) + (vs.length : Int) - 1) % (vs.length : Int) =
          (h + (k : Int) - 1) % (vs.length : Int) := by
      rw [show h + (k : Int) + (vs.length : Int) - 1 =
            (h + (k : Int) - 1) + (vs.length : Int) * 1 by ring,
        Int.add_mul_emod_self_left]
    rw [hlen, hmod]

/-- A two-validator set given in descending insertion order. -/
def vsC8 : List Validator :=
  [{ validator_id := "v2", public_key := "k2" },
    { validator_id := "v1", public_key := "k1" }]

/-- The same set ascending, as C8's sorted list. -/
def lC8 : List Validator :=
  [{ validator_id := "v1", public_key := "k1" },
    { validator_id := "v2", public_key := "k2" }]

/-- Witness for C8 at a two-validator set given in descending order. -/
theorem C8_rotation_witness :
    vsC8 ≠ [] ∧ lC8.Perm vsC8 ∧ lC8.Sorted idLe ∧
      ((ProposerRotation.init vsC8).get_current_proposer 5 =
          some ((lC8.getD ((5 - 1) % (vsC8.length : Int)).toNat default).validator_id) ∧
        (ProposerRotation.init vsC8).get_current_proposer (5 + ((2 : Nat) : Int)) =
          (ProposerRotation.init vsC8).get_current_proposer
            (5 + ((2 : Nat) : Int) + (vsC8.length : Int)) ∧
        (ProposerRotation.init []).get_current_proposer 5 = none) :=
  ⟨by decide, by decide, by decide,
    C8_rotation vsC8 lC8 5 2 (by decide) (by decide) (by decide)⟩

/-! ## Ledger error paths: atomicity (C6) and admission (C7) -/

theorem lookupA_append_self {α : Type} (l : List (String × α)) (k : String) (v : α) :
    (lookupA (l ++ [(k, v)]) k).isSome = true := by
  induction l with
  | nil => simp [lookupA]
  | cons e rest ih =>
      obtain ⟨k', v'⟩ := e
      by_cases hk : k' = k <;> simp [lookupA, hk, ih]

/-- A transaction whose hash is already a mempool key is rejected with no
state change. -/
theorem add_transaction_dup (s : LedgerState) (tx : Transaction)
    (h : (lookupA s.mempool (hash_transaction tx)).isSome = true) :
    Ledger.add_transaction s tx = (false, s) := by
  simp [Ledger.add_transaction, h]

/-- C6: whenever add_transaction reports False, propose_new_block returns
none, or add_block reports False, the entire ledger state (chain, mempool,
account/DPA state) is returned unchanged; and a successful proposal changes
exactly the mempool, clearing it. -/
theorem C6_atomicity (st : LedgerState) (tx : Transaction) (p ts : String) (b : Block) :
    ((Ledger.add_transaction st tx).1 = false → (Ledger.add_transaction st tx).2 = st) ∧
      ((Ledger.propose_new_block st p ts).1 = none →
        (Ledger.propose_new_block st p ts).2 = st) ∧
      ((Ledger.propose_new_block st p ts).1.isSome = true →
        (Ledger.propose_new_block st p ts).2 = { st with mempool := [] }) ∧
      ((Ledger.add_block st b).1 = false → (Ledger.add_block st b).2 = st) := by
  refine ⟨?_, ?_, ?_, ?_⟩
  · by_cases h1 : (lookupA st.mempool (hash_transaction tx)).isSome
    · simp [Ledger.add_transaction, h1]
    · by_cases h2 : TransactionValidator.validate_transaction st.mempool tx
      · simp [Ledger.add_transaction, h1, h2]
      · simp [Ledger.add_transaction, h1, h2]
  · by_cases h1 :
        some p =
          st.proposer_rotation.get_current_proposer
            ((Ledger.get_latest_block st).header.nonce + 1)
    · by_cases h2 : st.mempool.map Prod.snd = []
      · simp [Ledger.propose_new_block, h1, h2]
      · simp [Ledger.propose_new_block, h1, h2]
    · simp [Ledger.propose_new_block, h1]
  · by_cases h1 :
        some p =
          st.proposer_rotation.get_current_proposer
            ((Ledger.get_latest_block st).header.nonce + 1)
    · by_cases h2 : st.mempool.map Prod.snd = []
      · simp [Ledger.propose_new_block, h1, h2]
      · simp [Ledger.propose_new_block, h1, h2]
    · simp [Ledger.propose_new_block, h1]
  · by_cases h1 : BlockCreator.is_block_valid b (Ledger.get_latest_block st)
    · simp [Ledger.add_block, h1]
    · simp [Ledger.add_block, h1]

/-- Witness for C6: a transaction with non-positive amount is rejected with
the state unchanged; a wrong-turn proposal and an invalid block likewise. -/
theorem C6_atomicity_witness :
    (Ledger.add_transaction (Ledger.init default vsC8)
          { sender := "A", recipient := "B", amount := 0 }).1 = false ∧
      (Ledger.add_transaction (Ledger.init default vsC8)
          { sender := "A", recipient := "B", amount := 0 }).2 = Ledger.init default vsC8 :=
  ⟨by decide,
    (C6_atomicity (Ledger.init default vsC8) { sender := "A", recipient := "B", amount := 0 }
          "v1" "1" default).1
      (by decide)⟩

/-- C7: add_transaction rejects exactly when the canonical hash is already a
mempool key, or some mempool transaction shares sender and nonce, or the
amount is non-positive, or an address is empty; the decision reads only the
mempool (never account balances); acceptance appends the entry keyed by the
hash; and resubmitting an accepted transaction is rejected without change,
leaving the one entry. -/
theorem C7_admission (st : LedgerState) (tx : Transaction) :
    ((Ledger.add_transaction st tx).1 = false ↔
        (lookupA st.mempool (hash_transaction tx)).isSome = true ∨
          (∃ e ∈ st.mempool, e.2.sender = tx.sender ∧ e.2.nonce = tx.nonce) ∨
          tx.amount ≤ 0 ∨ tx.sender = "" ∨ tx.recipient = "") ∧
      ((Ledger.add_transaction st tx).1 = true →
        (Ledger.add_transaction st tx).2.mempool = st.mempool ++ [(hash_transaction tx, tx)]) ∧
      ((Ledger.add_transaction st tx).1 = true →
        (Ledger.add_transaction (Ledger.add_transaction st tx).2 tx).1 = false ∧
          (Ledger.add_transaction (Ledger.add_transaction st tx).2 tx).2 =
            (Ledger.add_transaction st tx).2) ∧
      (∀ st' : LedgerState, st'.mempool = st.mempool →
        (Ledger.add_transaction st' tx).1 = (Ledger.add_transaction st tx).1) := by
  have hany :
      (((st.mempool.map Prod.snd).any fun t => t.sender == tx.sender && t.nonce == tx.nonce) =
          true) ↔
        ∃ e ∈ st.mempool, e.2.sender = tx.sender ∧ e.2.nonce = tx.nonce := by
    rw [List.any_eq_true]
    constructor
    · rintro ⟨t, ht, hb⟩
      rw [List.mem_map] at ht
      obtain ⟨e, he, rfl⟩ := ht
      simp only [Bool.and_eq_true, beq_iff_eq] at hb
      exact ⟨e, he, hb.1, hb.2⟩
    · rintro ⟨e, he, hs, hn⟩
      exact ⟨e.2, List.mem_map_of_mem Prod.snd he, by simp [hs, hn]⟩
  refine ⟨?_, ?_, ?_, ?_⟩
  · by_cases h1 : (lookupA st.mempool (hash_transaction tx)).isSome = true
    · have hr : (Ledger.add_transaction st tx).1 = false := by
        simp [Ledger.add_transaction, h1]
      simp only [hr]
      simp only [true_iff, eq_self_iff_true]
      exact Or.inl h1
    · by_cases h2 :
          ((st.mempool.map Prod.snd).any fun t =>
              t.sender == tx.sender && t.nonce == tx.nonce) = true
      · have hr : (Ledger.add_transaction st tx).1 = false := by
          simp [Ledger.add_transaction, TransactionValidator.validate_transaction, h1, h2]
        simp only [hr, true_iff, eq_self_iff_true]
        exact Or.inr (Or.inl (hany.mp h2))
      · by_cases h3 : tx.amount ≤ 0
        · have hr : (Ledger.add_transaction st tx).1 = false := by
            simp [Ledger.add_transaction, TransactionValidator.validate_transaction, h1, h2, h3]
          simp only [hr, true_iff, eq_self_iff_true]
          exact Or.inr (Or.inr (Or.inl h3))
        · by_cases h4 : tx.sender = "" ∨ tx.recipient = ""
          · have hr : (Ledger.add_transaction st tx).1 = false := by
              simp [Ledger.add_transaction, TransactionValidator.validate_transaction, h1, h2,
                h3, h4]
            simp only [hr, true_iff, eq_self_iff_true]
            rcases h4 with h | h
            · exact Or.inr (Or.inr (Or.inr (Or.inl h)))
            · exact Or.inr (Or.inr (Or.inr (Or.inr h)))
          · have hr : (Ledger.add_transaction st tx).1 = true := by
              simp [Ledger.add_transaction, TransactionValidator.validate_transaction, h1, h2,
                h3, h4]
            rw [hr]
            constructor
            · intro hfalse
              exact absurd hfalse (by simp)
            · rintro (hc | hc | hc | hc | hc)
              · exact absurd hc h1
              · exact absurd (hany.mpr hc) h2
              · exact absurd hc h3
              · exact absurd (Or.inl hc) h4
              · exact absurd (Or.inr hc) h4
  · intro ht
    by_cases h1 : (lookupA st.mempool (hash_transaction tx)).isSome = true
    · simp [Ledger.add_transaction, h1] at ht
    · by_cases h2 : TransactionValidator.validate_transaction st.mempool tx
      · simp [Ledger.add_transaction, h1, h2]
      · simp [Ledger.add_transaction, h1, h2] at ht
  · intro ht
    by_cases h1 : (lookupA st.mempool (hash_transaction tx)).isSome = true
    · simp [Ledger.add_transaction, h1] at ht
    · by_cases h2 : TransactionValidator.validate_transaction st.mempool tx
      · have hmem :
            (Ledger.add_transaction st tx).2.mempool =
              st.mempool ++ [(hash_transaction tx, tx)] := by
          simp [Ledger.add_transaction, h1, h2]
        have hlook :
            (lookupA (Ledger.add_transaction st tx).2.mempool (hash_transaction tx)).isSome =
              true := by
          rw [hmem]
          exact lookupA_append_self _ _ _
        rw [add_transaction_dup (Ledger.add_transaction st tx).2 tx hlook]
        exact ⟨rfl, rfl⟩
      · simp [Ledger.add_transaction, h1, h2] at ht
  · intro st' hmem
    by_cases h1 : (lookupA st.mempool (hash_transaction tx)).isSome = true
    · simp [Ledger.add_transaction, h1, hmem]
    · by_cases h2 : TransactionValidator.validate_transaction st.mempool tx
      · simp [Ledger.add_transaction, h1, h2, hmem]
      · simp [Ledger.add_transaction, h1, h2, hmem]

/-- Witness for C7: a fresh ledger accepts a well-formed transaction; both
implications and the mempool-only dependency are exercised at it. -/
theorem C7_admission_witness :
    ((Ledger.add_transaction (Ledger.init default vsC8)
          { sender := "A", recipient := "B", amount := 50, nonce := 1 }).1 = true →
        (Ledger.add_transaction (Ledger.init default vsC8)
              { sender := "A", recipient := "B", amount := 50, nonce := 1 }).2.mempool =
          (Ledger.init default vsC8).mempool ++
            [(hash_transaction { sender := "A", recipient := "B", amount := 50, nonce := 1 },
              { sender := "A", recipient := "B", amount := 50, nonce := 1 })]) ∧
      (Ledger.add_transaction (Ledger.init default vsC8)
          { sender := "A", recipient := "B", amount := 50, nonce := 1 }).1 = true :=
  ⟨(C7_admission (Ledger.init default vsC8)
        { sender := "A", recipient := "B", amount := 50, nonce := 1 }).2.1,
    by decide⟩

/-! ## Hash-chain integrity (C5) and fresh-block validity (C10) -/

/-- The chain-link invariant: every block's prev_hash is the canonical hash
of its predecessor's header. -/
def chainLinked : List Block → Bool
  | [] => true
  | [_] => true
  | a :: b :: rest =>
      (b.header.prev_hash == hash_block_header a.header) && chainLinked (b :: rest)

/-- Run a sequence of add_block attempts (failed ones leave the state as
is, so only the successful ones extend the chain). -/
def applyBlocks (st : LedgerState) (bs : List Block) : LedgerState :=
  bs.foldl (fun s b => (Ledger.add_block s b).2) st

theorem chainLinked_append (l : List Block) (nb : Block)
    (hl : chainLinked l = true)
    (hn : nb.header.prev_hash = hash_block_header (l.getLastD default).header)
    (hne : l ≠ []) :
    chainLinked (l ++ [nb]) = true := by
  induction l with
  | nil => exact absurd rfl hne
  | cons a rest ih =>
      cases rest with
      | nil =>
          simp only [List.cons_append, List.nil_append, chainLinked, Bool.and_eq_true,
            beq_iff_eq]
          exact ⟨hn, trivial⟩
      | cons b rest' =>
          simp only [chainLinked, Bool.and_eq_true] at hl
          simp only [List.cons_append, chainLinked, Bool.and_eq_true]
          exact ⟨hl.1, ih hl.2 hn (by simp)⟩

theorem add_block_chainLinked (st : LedgerState) (b : Block)
    (hl : chainLinked st.chain = true) (hne : st.chain ≠ []) :
    chainLinked (Ledger.add_block st b).2.chain = true ∧ (Ledger.add_block st b).2.chain ≠ [] := by
  by_cases hv : BlockCreator.is_block_valid b (Ledger.get_latest_block st)
  · have hprev : b.header.prev_hash = hash_block_header (Ledger.get_latest_block st).header := by
      by_contra hne'
      simp [BlockCreator.is_block_valid, hne'] at hv
    constructor
    · simp only [Ledger.add_block, hv, if_true, not_true_eq_false, ite_false]
      exact chainLinked_append st.chain b hl hprev hne
    · simp only [Ledger.add_block, hv, not_true_eq_false, ite_false]
      simp
  · simp [Ledger.add_block, hv, hl, hne]

theorem applyBlocks_chainLinked (st : LedgerState) (bs : List Block)
    (hl : chainLinked st.chain = true) (hne : st.chain ≠ []) :
    chainLinked (applyBlocks st bs).chain = true ∧ (applyBlocks st bs).chain ≠ [] := by
  induction bs generalizing st with
  | nil => exact ⟨hl, hne⟩
  | cons b bs ih =>
      have h1 := add_block_chainLinked st b hl hne
      exact ih (Ledger.add_block st b).2 h1.1 h1.2

theorem chainLinked_getD : ∀ l : List Block, chainLinked l = true → ∀ i : Nat, 0 < i →
    i < l.length →
    (l.getD i default).header.prev_hash = hash_block_header (l.getD (i - 1) default).header := by
  intro l
  induction l with
  | nil => intro _ i _ hi; simp at hi
  | cons a rest ih =>
      intro hl i h0 hi
      cases rest with
      | nil =>
          simp only [List.length_cons, List.length_nil] at hi
          omega
      | cons b rest' =>
          simp only [chainLinked, Bool.and_eq_true, beq_iff_eq] at hl
          cases i with
          | zero => simp at h0
          | succ j =>
              cases j with
              | zero => simpa using hl.1
              | succ j' =>
                  have := ih hl.2 (j' + 1) (Nat.succ_pos _) (by simpa using hi)
                  simpa using this

/-- C5: along any chain built from a genesis block by a sequence of
add_block calls, every block's prev_hash equals the canonical hash of the
previous block's header. -/
theorem C5_hash_chain (g : Block) (vs : List Validator) (bs : List Block) (i : Nat)
    (h0 : 0 < i) (hi : i < (applyBlocks (Ledger.init g vs) bs).chain.length) :
    ((applyBlocks (Ledger.init g vs) bs).chain.getD i default).header.prev_hash =
      hash_block_header
        ((applyBlocks (Ledger.init g vs) bs).chain.getD (i - 1) default).header := by
  have hinv := applyBlocks_chainLinked (Ledger.init g vs) bs (by rfl) (by simp [Ledger.init])
  exact chainLinked_getD _ hinv.1 i h0 hi

/-- The genesis block used by the concrete witnesses. -/
def genesisB : Block :=
  { header :=
      { prev_hash := String.mk (List.replicate 64 '0'), merkle_root := none,
        timestamp := "1.0", validator := "genesis" },
    transactions := [] }

/-- The transaction used by the concrete witnesses. -/
def txW : Transaction := { sender := "A", recipient := "B", amount := 50, nonce := 1 }

/-- A block assembled on top of the genesis block. -/
def blockW : Block :=
  BlockCreator.create_block (hash_block_header genesisB.header) [txW] "v1" "2.0"

/-- Witness for C5: a genesis chain extended by one assembled block. -/
theorem C5_hash_chain_witness :
    0 < 1 ∧ 1 < (applyBlocks (Ledger.init genesisB vsC8) [blockW]).chain.length ∧
      ((applyBlocks (Ledger.init genesisB vsC8) [blockW]).chain.getD 1 default).header.prev_hash =
        hash_block_header
          ((applyBlocks (Ledger.init genesisB vsC8) [blockW]).chain.getD (1 - 1)
              default).header :=
  ⟨by decide, by decide, C5_hash_chain genesisB vsC8 [blockW] 1 (by decide) (by decide)⟩

/-- C10: a block assembled by create_block on top of a tip (any transaction
list, including the empty one whose Merkle root is the empty marker) always
revalidates against that tip; consequently add_block succeeds on any block
propose_new_block just returned, the chain tip being unchanged by the
proposal. -/
theorem C10_fresh_block_valid (tip : Block) (txs : List Transaction) (p ts : String)
    (st : LedgerState) (b : Block) :
    BlockCreator.is_block_valid
        (BlockCreator.create_block (hash_block_header tip.header) txs p ts) tip = true ∧
      ((Ledger.propose_new_block st p ts).1 = some b →
        (Ledger.add_block (Ledger.propose_new_block st p ts).2 b).1 = true) := by
  have hvalid : ∀ (tip' : Block) (txs' : List Transaction) (p' ts' : String),
      BlockCreator.is_block_valid
        (BlockCreator.create_block (hash_block_header tip'.header) txs' p' ts') tip' = true := by
    intro tip' txs' p' ts'
    simp [BlockCreator.is_block_valid, BlockCreator.create_block]
  refine ⟨hvalid tip txs p ts, ?_⟩
  intro hb
  by_cases h1 :
      some p =
        st.proposer_rotation.get_current_proposer
          ((Ledger.get_latest_block st).header.nonce + 1)
  · by_cases h2 : st.mempool.map Prod.snd = []
    · simp [Ledger.propose_new_block, h1, h2] at hb
    · have hb' :
          b =
            BlockCreator.create_block (hash_block_header (Ledger.get_latest_block st).header)
              (st.mempool.map Prod.snd) p ts := by
        simp [Ledger.propose_new_block, h1, h2] at hb
        exact hb.symm
      have hst' : (Ledger.propose_new_block st p ts).2 = { st with mempool := [] } := by
        simp [Ledger.propose_new_block, h1, h2]
      have htip :
          Ledger.get_latest_block { st with mempool := ([] : List (String × Transaction)) } =
            Ledger.get_latest_block st := rfl
      rw [hst']
      simp only [Ledger.add_block, htip, hb']
      simp [hvalid (Ledger.get_latest_block st) (st.mempool.map Prod.snd) p ts]
  · simp [Ledger.propose_new_block, h1] at hb

/-- The ledger state the concrete proposal/commit witnesses start from:
genesis ledger over the two-validator registry, one admitted transaction. -/
def stW : LedgerState := (Ledger.add_transaction (Ledger.init genesisB vsC8) txW).2

/-- Witness for C10: on stW the proposal succeeds and the proposed block is
accepted by add_block. -/
theorem C10_fresh_block_valid_witness :
    (Ledger.propose_new_block stW "v1" "2.0").1 = some blockW ∧
      (Ledger.add_block (Ledger.propose_new_block stW "v1" "2.0").2 blockW).1 = true :=
  ⟨by decide,
    (C10_fresh_block_valid default [] "v1" "2.0" stW blockW).2 (by decide)⟩

/-- C2 (code bug): the source gates proposals with
get_current_proposer(latest.header.nonce + 1); header nonces are left at
their default 0 by create_block, so on stW (chain length 1, next height 2)
the code still consults height 1 and returns a block for "v1", while the
claimed rule proposerFor(len(chain)+1) selects "v2" and demands none for
"v1". -/
theorem C2_rotation_height_code_bug :
    (Ledger.propose_new_block stW "v1" "2.0").1.isSome = true ∧
      stW.proposer_rotation.get_current_proposer ((stW.chain.length : Int) + 1) = some "v2" ∧
      (some "v1" : Option String) ≠ some "v2" := by
  refine ⟨by decide, by decide, by decide⟩

/-! ## Association-list lemmas for the state machine -/

theorem lookupA_mem {α : Type} : ∀ (l : List (String × α)) (k : String) (v : α),
    lookupA l k = some v → (k, v) ∈ l := by
  intro l
  induction l with
  | nil => intro k v h; simp [lookupA] at h
  | cons e rest ih =>
      intro k v h
      obtain ⟨k', v'⟩ := e
      by_cases hk : k' = k
      · simp [lookupA, hk] at h
        simp [hk, h]
      · simp [lookupA, hk] at h
        exact List.mem_cons_of_mem _ (ih k v h)

theorem lookupA_append {α : Type} : ∀ (l₁ l₂ : List (String × α)) (k : String),
    lookupA (l₁ ++ l₂) k =
      match lookupA l₁ k with
      | some v => some v
      | none => lookupA l₂ k := by
  intro l₁
  induction l₁ with
  | nil => intro l₂ k; simp [lookupA]
  | cons e rest ih =>
      intro l₂ k
      obtain ⟨k', v'⟩ := e
      by_cases hk : k' = k <;> simp [lookupA, hk, ih]

theorem lookupA_mapA_isSome {α : Type} : ∀ (l : List (String × α)) (k k' : String)
    (f : α → α), (lookupA (mapA l k f) k').isSome = (lookupA l k').isSome := by
  intro l
  induction l with
  | nil => intro k k' f; simp [mapA]
  | cons e rest ih =>
      intro k k' f
      obtain ⟨k₀, v₀⟩ := e
      by_cases h1 : k₀ = k
      · subst h1
        by_cases h2 : k₀ = k'
        · subst h2
          simp [mapA, lookupA]
        · simp [mapA, lookupA, h2]
      · by_cases h2 : k₀ = k'
        · subst h2
          simp [mapA, lookupA, h1]
        · simp [mapA, lookupA, h1, h2, ih]

theorem lookupA_mapA_self {α : Type} : ∀ (l : List (String × α)) (k : String) (f : α → α),
    lookupA (mapA l k f) k = (lookupA l k).map f := by
  intro l
  induction l with
  | nil => intro k f; simp [mapA, lookupA]
  | cons e rest ih =>
      intro k f
      obtain ⟨k₀, v₀⟩ := e
      by_cases h1 : k₀ = k
      · subst h1
        simp [mapA, lookupA]
      · simp [mapA, lookupA, h1, ih]

theorem lookupA_mapA_ne {α : Type} : ∀ (l : List (String × α)) (k k' : String) (f : α → α),
    k' ≠ k → lookupA (mapA l k f) k' = lookupA l k' := by
  intro l
  induction l with
  | nil => intro k k' f _; simp [mapA]
  | cons e rest ih =>
      intro k k' f hne
      obtain ⟨k₀, v₀⟩ := e
      by_cases h1 : k₀ = k
      · subst h1
        have h2 : ¬ k₀ = k' := fun h => hne h.symm
        simp [mapA, lookupA, h2]
      · by_cases h2 : k₀ = k'
        · subst h2
          simp [mapA, lookupA, h1]
        · simp [mapA, lookupA, h1, h2, ih _ _ _ hne]

theorem lookupA_setA_self {α : Type} : ∀ (l : List (String × α)) (k : String) (v : α),
    lookupA (setA l k v) k = some v := by
  intro l
  induction l with
  | nil => intro k v; simp [setA, lookupA]
  | cons e rest ih =>
      intro k v
      obtain ⟨k₀, v₀⟩ := e
      by_cases h1 : k₀ = k <;> simp [setA, lookupA, h1, ih]

theorem mapA_of_lookup_none {α : Type} : ∀ (l : List (String × α)) (k : String) (f : α → α),
    lookupA l k = none → mapA l k f = l := by
  intro l
  induction l with
  | nil => intro k f _; rfl
  | cons e rest ih =>
      intro k f h
      obtain ⟨k₀, v₀⟩ := e
      by_cases h1 : k₀ = k
      · simp [lookupA, h1] at h
      · simp [lookupA, h1] at h
        simp [mapA, h1, ih _ _ h]

/-- Everything a key-local mutation keeps: a pointwise property of the
stored values, provided the mutation preserves it. -/
theorem mapA_forall {α : Type} (P : α → Prop) :
    ∀ (l : List (String × α)) (k : String) (f : α → α),
      (∀ e ∈ l, P e.2) → (∀ a, P a → P (f a)) → ∀ e ∈ mapA l k f, P e.2 := by
  intro l
  induction l with
  | nil => intro k f _ _ e he; simp [mapA] at he
  | cons e₀ rest ih =>
      intro k f hall hf e he
      obtain ⟨k₀, v₀⟩ := e₀
      by_cases h1 : k₀ = k
      · simp only [mapA, h1, if_true] at he
        rcases List.mem_cons.mp he with rfl | hmem
        · exact hf _ (hall _ (List.mem_cons_self _ _))
        · exact hall _ (List.mem_cons_of_mem _ hmem)
      · simp only [mapA, h1, if_false] at he
        rcases List.mem_cons.mp he with rfl | hmem
        · exact hall _ (List.mem_cons_self _ _)
        · exact ih k f (fun x hx => hall x (List.mem_cons_of_mem _ hx)) hf e hmem

/-! ## Balance-sum lemmas -/

/-- The sum of the balance field over all accounts. -/
def sumBal (l : List (String × Account)) : Int :=
  (l.map (fun e => e.2.balance)).sum

def sumBalances (st : StateManager) : Int := sumBal st.accounts

theorem sumBal_append (l : List (String × Account)) (k : String) (a : Account) :
    sumBal (l ++ [(k, a)]) = sumBal l + a.balance := by
  simp [sumBal]

theorem sumBal_mapA_some : ∀ (l : List (String × Account)) (k : String)
    (f : Account → Account) (a : Account), lookupA l k = some a →
    sumBal (mapA l k f) = sumBal l + ((f a).balance - a.balance) := by
  intro l
  induction l with
  | nil => intro k f a h; simp [lookupA] at h
  | cons e rest ih =>
      intro k f a h
      obtain ⟨k₀, v₀⟩ := e
      by_cases h1 : k₀ = k
      · simp [lookupA, h1] at h
        subst h
        simp [mapA, h1, sumBal]
        ring
      · simp [lookupA, h1] at h
        simp [mapA, h1, sumBal] at ih ⊢
        rw [ih k f a h]
        ring

theorem sumBal_mapA_balance_eq (l : List (String × Account)) (k : String)
    (f : Account → Account) (hf : ∀ a, (f a).balance = a.balance) :
    sumBal (mapA l k f) = sumBal l := by
  cases hlook : lookupA l k with
  | none => rw [mapA_of_lookup_none l k f hlook]
  | some a => rw [sumBal_mapA_some l k f a hlook, hf a]; ring

/-! ## Conservation facts about the state-machine operations -/

namespace StateManager

theorem get_account_sum (st : StateManager) (a : String) :
    sumBalances (st.get_account a).1 = sumBalances st := by
  cases h : lookupA st.accounts a with
  | some acc => simp [get_account, h]
  | none => simp [get_account, h, sumBalances, sumBal_append]

theorem get_account_supply (st : StateManager) (a : String) :
    (st.get_account a).1.total_supply = st.total_supply := by
  cases h : lookupA st.accounts a with
  | some acc => simp [get_account, h]
  | none => simp [get_account, h]

theorem get_account_present (st : StateManager) (a : String) :
    (lookupA (st.get_account a).1.accounts a).isSome = true := by
  cases h : lookupA st.accounts a with
  | some acc => simp [get_account, h]
  | none =>
      simp only [get_account, h]
      rw [lookupA_append, h]
      simp [lookupA]

theorem get_account_present_mono (st : StateManager) (a k : String)
    (h : (lookupA st.accounts k).isSome = true) :
    (lookupA (st.get_account a).1.accounts k).isSome = true := by
  cases h0 : lookupA st.accounts a with
  | some acc => simpa [get_account, h0] using h
  | none =>
      simp only [get_account, h0]
      rw [lookupA_append]
      cases hk : lookupA st.accounts k with
      | some v => simp
      | none => rw [hk] at h; simp at h

theorem updBalance_sum (st : StateManager) (k : String) (f : Int → Int) (a : Account)
    (h : lookupA st.accounts k = some a) :
    sumBalances (st.updBalance k f) = sumBalances st + (f a.balance - a.balance) := by
  simpa [updBalance, sumBalances] using
    sumBal_mapA_some st.accounts k (fun acc => { acc with balance := f acc.balance }) a h

theorem updBalance_supply (st : StateManager) (k : String) (f : Int → Int) :
    (st.updBalance k f).total_supply = st.total_supply := rfl

theorem updBalance_present (st : StateManager) (k k' : String) (f : Int → Int) :
    (lookupA (st.updBalance k f).accounts k').isSome = (lookupA st.accounts k').isSome :=
  lookupA_mapA_isSome st.accounts k k' _

theorem setDpa_sum (st : StateManager) (k d_id : String) (d : DigitalPublicAsset) :
    sumBalances (st.setDpa k d_id d) = sumBalances st :=
  sumBal_mapA_balance_eq st.accounts k _ (fun _ => rfl)

theorem setDpa_supply (st : StateManager) (k d_id : String) (d : DigitalPublicAsset) :
    (st.setDpa k d_id d).total_supply = st.total_supply := rfl

theorem updDpaAmount_sum (st : StateManager) (k d_id : String) (f : Int → Int) :
    sumBalances (st.updDpaAmount k d_id f) = sumBalances st :=
  sumBal_mapA_balance_eq st.accounts k _ (fun _ => rfl)

theorem updDpaAmount_supply (st : StateManager) (k d_id : String) (f : Int → Int) :
    (st.updDpaAmount k d_id f).total_supply = st.total_supply := rfl

theorem issueTx_sums (st : StateManager) (tx : Transaction) :
    sumBalances (issueTx st tx) = sumBalances st ∧
      (issueTx st tx).total_supply = st.total_supply + tx.amount := by
  constructor
  · show sumBalances ((st.get_account tx.recipient).1.setDpa tx.recipient _ _) = sumBalances st
    rw [setDpa_sum, get_account_sum]
  · show ((st.get_account tx.recipient).1.setDpa tx.recipient _ _).total_supply + tx.amount =
      st.total_supply + tx.amount
    rw [setDpa_supply, get_account_supply]

theorem dpaTransferTx_sums (st : StateManager) (tx : Transaction) :
    sumBalances (dpaTransferTx st tx) = sumBalances st ∧
      (dpaTransferTx st tx).total_supply = st.total_supply := by
  unfold dpaTransferTx
  cases hd :
      StateManager.dpaOf ((st.get_account tx.sender).1.get_account tx.recipient).1 tx.sender
        (splitSecond (txData tx)) with
  | none =>
      simp only [hd]
      rw [get_account_sum, get_account_sum, get_account_supply, get_account_supply]
      exact ⟨rfl, rfl⟩
  | some d =>
      simp only [hd]
      by_cases hge : d.amount ≥ tx.amount
      · simp only [hge, if_true]
        cases hr :
            StateManager.dpaOf
              (((st.get_account tx.sender).1.get_account tx.recipient).1.updDpaAmount tx.sender
                (splitSecond (txData tx)) (fun a => a - tx.amount))
              tx.recipient (splitSecond (txData tx)) with
        | some d' =>
            simp only [hr]
            constructor
            · rw [updDpaAmount_sum, updDpaAmount_sum, get_account_sum, get_account_sum]
            · rw [updDpaAmount_supply, updDpaAmount_supply, get_account_supply,
                get_account_supply]
        | none =>
            simp only [hr]
            constructor
            · rw [setDpa_sum, updDpaAmount_sum, get_account_sum, get_account_sum]
            · rw [setDpa_supply, updDpaAmount_supply, get_account_supply, get_account_supply]
      · simp only [hge, if_false]
        constructor
        · rw [get_account_sum, get_account_sum]
        · rw [get_account_supply, get_account_supply]

theorem currencyTx_sums (st : StateManager) (tx : Transaction) :
    sumBalances (currencyTx st tx) = sumBalances st ∧
      (currencyTx st tx).total_supply = st.total_supply := by
  unfold currencyTx
  by_cases hge :
      StateManager.balanceOf ((st.get_account tx.sender).1.get_account tx.recipient).1
          tx.sender ≥ tx.amount
  · simp only [hge, if_true]
    have hs2 :
        (lookupA ((st.get_account tx.sender).1.get_account tx.recipient).1.accounts
            tx.sender).isSome = true :=
      get_account_present_mono _ _ _ (get_account_present st tx.sender)
    obtain ⟨sacc, hsacc⟩ := Option.isSome_iff_exists.mp hs2
    have hr3 :
        (lookupA
            (((st.get_account tx.sender).1.get_account tx.recipient).1.updBalance tx.sender
                (fun b => b - tx.amount)).accounts
            tx.recipient).isSome = true := by
      rw [updBalance_present]
      exact get_account_present _ _
    obtain ⟨racc, hracc⟩ := Option.isSome_iff_exists.mp hr3
    constructor
    · rw [updBalance_sum _ _ _ racc hracc, updBalance_sum _ _ _ sacc hsacc,
        get_account_sum, get_account_sum]
      ring
    · rw [updBalance_supply, updBalance_supply, get_account_supply, get_account_supply]
  · simp only [hge, if_false]
    exact ⟨by rw [get_account_sum, get_account_sum],
      by rw [get_account_supply, get_account_supply]⟩

/-- Every branch of process_transaction conserves the sum of balances, and
total_supply moves by tx.amount exactly on the issuance branch. -/
theorem process_transaction_sums (st : StateManager) (tx : Transaction) :
    sumBalances (st.process_transaction tx) = sumBalances st ∧
      (st.process_transaction tx).total_supply =
        st.total_supply + (if strStarts (txData tx) "issue:" = true then tx.amount else 0) := by
  unfold process_transaction
  by_cases hIss : strStarts (txData tx) "issue:" = true
  · simpa [hIss] using issueTx_sums st tx
  · by_cases hTr : strStarts (txData tx) "transfer:" = true
    · simpa [hIss, hTr] using dpaTransferTx_sums st tx
    · simpa [hIss, hTr] using currencyTx_sums st tx

/-- The record freshly stored under an ensured account key is retrievable. -/
theorem dpaOf_setDpa_self (st : StateManager) (k d_id : String) (d : DigitalPublicAsset)
    (h : (lookupA st.accounts k).isSome = true) :
    StateManager.dpaOf (st.setDpa k d_id d) k d_id = some d := by
  obtain ⟨a, ha⟩ := Option.isSome_iff_exists.mp h
  unfold StateManager.dpaOf StateManager.setDpa
  rw [lookupA_mapA_self, ha]
  simp [lookupA_setA_self]

end StateManager

/-- C3 (amended): any sequence of non-issuance transactions leaves the sum
of account balances unchanged — and leaves total_supply unchanged as well;
a single issuance transaction also leaves the sum of account balances
unchanged, and instead increases total_supply by exactly tx.amount. -/
theorem C3_value_conservation (st : StateManager) (txs : List Transaction) (tx : Transaction)
    (hni : ∀ t ∈ txs, ¬ strStarts (StateManager.txData t) "issue:" = true)
    (hi : strStarts (StateManager.txData tx) "issue:" = true) :
    (sumBalances (txs.foldl StateManager.process_transaction st) = sumBalances st ∧
        (txs.foldl StateManager.process_transaction st).total_supply = st.total_supply) ∧
      sumBalances (st.process_transaction tx) = sumBalances st ∧
      (st.process_transaction tx).total_supply = st.total_supply + tx.amount := by
  have hfold : ∀ (l : List Transaction) (s : StateManager),
      (∀ t ∈ l, ¬ strStarts (StateManager.txData t) "issue:" = true) →
      sumBalances (l.foldl StateManager.process_transaction s) = sumBalances s ∧
        (l.foldl StateManager.process_transaction s).total_supply = s.total_supply := by
    intro l
    induction l with
    | nil => intro s _; exact ⟨rfl, rfl⟩
    | cons t ts ih =>
        intro s hall
        have h1 := StateManager.process_transaction_sums s t
        have hnt : ¬ strStarts (StateManager.txData t) "issue:" = true :=
          hall t (List.mem_cons_self _ _)
        have ih' := ih (s.process_transaction t) (fun u hu => hall u (List.mem_cons_of_mem _ hu))
        refine ⟨?_, ?_⟩
        · rw [List.foldl_cons, ih'.1, h1.1]
        · rw [List.foldl_cons, ih'.2, h1.2]
          simp [hnt]
  have hone := StateManager.process_transaction_sums st tx
  exact ⟨hfold txs st hni, hone.1, by rw [hone.2]; simp [hi]⟩

/-- The issuance transaction used by the C3/C9 concrete inputs. -/
def txIssue5 : Transaction :=
  { sender := "gov", recipient := "agency", amount := 5, data := some "issue:X" }

/-- C3 counterexample: on the fresh state, the issuance leaves the balance
sum at 0; it does not increase it by the issued amount 5 as claimed. -/
theorem C3_issue_counterexample :
    ¬ (sumBalances (StateManager.initial.process_transaction txIssue5) =
        sumBalances StateManager.initial + txIssue5.amount) := by
  decide

/-- Witness for C3 at one plain transfer followed by one issuance. -/
theorem C3_value_conservation_witness :
    (∀ t ∈ [txW], ¬ strStarts (StateManager.txData t) "issue:" = true) ∧
      strStarts (StateManager.txData txIssue5) "issue:" = true ∧
      ((sumBalances ([txW].foldl StateManager.process_transaction StateManager.initial) =
            sumBalances StateManager.initial ∧
          ([txW].foldl StateManager.process_transaction StateManager.initial).total_supply =
            StateManager.initial.total_supply) ∧
        sumBalances (StateManager.initial.process_transaction txIssue5) =
          sumBalances StateManager.initial ∧
        (StateManager.initial.process_transaction txIssue5).total_supply =
          StateManager.initial.total_supply + txIssue5.amount) :=
  ⟨by decide, by decide,
    C3_value_conservation StateManager.initial [txW] txIssue5 (by decide) (by decide)⟩

/-- C4 (amended): processing an issuance stores the freshly built DPA
record under (recipient, dpa_id) — overwriting any previous holding, so the
recipient ends with exactly tx.amount, not the additive merge — while
total_supply still increases by tx.amount. -/
theorem C4_issuance_overwrites (st : StateManager) (tx : Transaction)
    (hi : strStarts (StateManager.txData tx) "issue:" = true) :
    StateManager.dpaOf (st.process_transaction tx) tx.recipient
        (splitSecond (StateManager.txData tx)) =
      some { asset_id := splitSecond (StateManager.txData tx), owner := tx.recipient,
             amount := tx.amount, data := some [("source_tx", tx.sender)] } ∧
      (st.process_transaction tx).total_supply = st.total_supply + tx.amount := by
  have hsup := (StateManager.process_transaction_sums st tx).2
  constructor
  · unfold StateManager.process_transaction
    simp only [hi, if_true]
    show StateManager.dpaOf
        ((st.get_account tx.recipient).1.setDpa tx.recipient _ _) tx.recipient _ = _
    exact StateManager.dpaOf_setDpa_self _ _ _ _ (StateManager.get_account_present st _)
  · rw [hsup]
    simp [hi]

/-- The state holding 3 units of DPA X under "agency". -/
def stC4 : StateManager :=
  StateManager.initial.process_transaction
    { sender := "gov", recipient := "agency", amount := 3, data := some "issue:X" }

/-- C4 counterexample: with 3 units of X already held, a second issuance of
5 leaves the holding at 5, not at the claimed additive 3 + 5. -/
theorem C4_additive_merge_counterexample :
    (StateManager.dpaOf stC4 "agency" "X").map DigitalPublicAsset.amount = some 3 ∧
      ¬ ((StateManager.dpaOf (stC4.process_transaction txIssue5) "agency" "X").map
            DigitalPublicAsset.amount = some (3 + 5)) :=
  ⟨by decide, by decide⟩

/-- Witness for C4 at the repeated-issuance state. -/
theorem C4_issuance_overwrites_witness :
    strStarts (StateManager.txData txIssue5) "issue:" = true ∧
      (StateManager.dpaOf (stC4.process_transaction txIssue5) txIssue5.recipient
            (splitSecond (StateManager.txData txIssue5)) =
          some { asset_id := splitSecond (StateManager.txData txIssue5),
                 owner := txIssue5.recipient, amount := txIssue5.amount,
                 data := some [("source_tx", txIssue5.sender)] } ∧
        (stC4.process_transaction txIssue5).total_supply = stC4.total_supply + txIssue5.amount) :=
  ⟨by decide, C4_issuance_overwrites stC4 txIssue5 (by decide)⟩

/-! ## C9: currency can never be created -/

theorem allZero_get_account (st : StateManager) (a : String)
    (h : ∀ e ∈ st.accounts, e.2.balance = 0) :
    ∀ e ∈ (st.get_account a).1.accounts, e.2.balance = 0 := by
  cases h0 : lookupA st.accounts a with
  | some acc => simpa [StateManager.get_account, h0] using h
  | none =>
      simp only [StateManager.get_account, h0]
      intro e he
      rcases List.mem_append.mp he with hmem | hmem
      · exact h e hmem
      · simp at hmem
        rw [hmem]

theorem allZero_mapA (st : List (String × Account)) (k : String) (f : Account → Account)
    (hf : ∀ a, (f a).balance = a.balance) (h : ∀ e ∈ st, e.2.balance = 0) :
    ∀ e ∈ mapA st k f, e.2.balance = 0 := by
  refine mapA_forall (fun a => a.balance = 0) st k f h ?_
  intro a ha
  rw [hf a, ha]

theorem balanceOf_allZero (st : StateManager) (k : String)
    (h : ∀ e ∈ st.accounts, e.2.balance = 0) : st.balanceOf k = 0 := by
  unfold StateManager.balanceOf
  cases h0 : lookupA st.accounts k with
  | none => rfl
  | some a => exact h (k, a) (lookupA_mem st.accounts k a h0)

theorem process_transaction_allZero (st : StateManager) (tx : Transaction)
    (h : ∀ e ∈ st.accounts, e.2.balance = 0) (hpos : 0 < tx.amount) :
    ∀ e ∈ (st.process_transaction tx).accounts, e.2.balance = 0 := by
  unfold StateManager.process_transaction
  by_cases hIss : strStarts (StateManager.txData tx) "issue:" = true
  · simp only [hIss, if_true]
    show ∀ e ∈ ((st.get_account tx.recipient).1.setDpa tx.recipient _ _).accounts, _
    exact allZero_mapA _ _ _ (fun _ => rfl) (allZero_get_account st _ h)
  · by_cases hTr : strStarts (StateManager.txData tx) "transfer:" = true
    · simp only [hIss, hTr, if_false, if_true]
      unfold StateManager.dpaTransferTx
      have h2 : ∀ e ∈ ((st.get_account tx.sender).1.get_account tx.recipient).1.accounts,
          e.2.balance = 0 :=
        allZero_get_account _ _ (allZero_get_account st _ h)
      cases hd :
          StateManager.dpaOf ((st.get_account tx.sender).1.get_account tx.recipient).1 tx.sender
            (splitSecond (StateManager.txData tx)) with
      | none => simpa [hd] using h2
      | some d =>
          simp only [hd]
          by_cases hge : d.amount ≥ tx.amount
          · simp only [hge, if_true]
            have h3 :
                ∀ e ∈ (((st.get_account tx.sender).1.get_account tx.recipient).1.updDpaAmount
                    tx.sender (splitSecond (StateManager.txData tx))
                    (fun a => a - tx.amount)).accounts,
                  e.2.balance = 0 :=
              allZero_mapA _ _ _ (fun _ => rfl) h2
            cases hr :
                StateManager.dpaOf
                  (((st.get_account tx.sender).1.get_account tx.recipient).1.updDpaAmount
                    tx.sender (splitSecond (StateManager.txData tx)) (fun a => a - tx.amount))
                  tx.recipient (splitSecond (StateManager.txData tx)) with
            | some d' =>
                simp only [hr]
                exact allZero_mapA _ _ _ (fun _ => rfl) h3
            | none =>
                simp only [hr]
                exact allZero_mapA _ _ _ (fun _ => rfl) h3
          · simpa [hge] using h2
    · simp only [hIss, hTr, if_false]
      unfold StateManager.currencyTx
      have h2 : ∀ e ∈ ((st.get_account tx.sender).1.get_account tx.recipient).1.accounts,
          e.2.balance = 0 :=
        allZero_get_account _ _ (allZero_get_account st _ h)
      have hbal :
          StateManager.balanceOf ((st.get_account tx.sender).1.get_account tx.recipient).1
            tx.sender = 0 :=
        balanceOf_allZero _ _ h2
      have hlt :
          ¬ StateManager.balanceOf ((st.get_account tx.sender).1.get_account tx.recipient).1
              tx.sender ≥ tx.amount := by
        rw [hbal]
        omega
      simpa [hlt] using h2

/-- C9: starting from a fresh StateManager, any sequence of
positive-amount transactions leaves every account's balance field at 0:
issuance never credits balances, and a plain transfer's sufficient-funds
check can never pass from a zero balance. -/
theorem C9_no_currency_creation (txs : List Transaction)
    (hpos : ∀ tx ∈ txs, 0 < tx.amount) :
    ∀ e ∈ (txs.foldl StateManager.process_transaction StateManager.initial).accounts,
      e.2.balance = 0 := by
  have hfold : ∀ (l : List Transaction) (s : StateManager),
      (∀ tx ∈ l, 0 < tx.amount) → (∀ e ∈ s.accounts, e.2.balance = 0) →
      ∀ e ∈ (l.foldl StateManager.process_transaction s).accounts, e.2.balance = 0 := by
    intro l
    induction l with
    | nil => intro s _ h0; exact h0
    | cons t ts ih =>
        intro s hall h0
        exact ih (s.process_transaction t) (fun u hu => hall u (List.mem_cons_of_mem _ hu))
          (process_transaction_allZero s t h0 (hall t (List.mem_cons_self _ _)))
  exact hfold txs StateManager.initial hpos (by intro e he; simp [StateManager.initial] at he)

/-- Witness for C9 at an issuance followed by an attempted transfer. -/
theorem C9_no_currency_creation_witness :
    (∀ tx ∈ [txIssue5, txW], 0 < tx.amount) ∧
      ∀ e ∈ ([txIssue5, txW].foldl StateManager.process_transaction
          StateManager.initial).accounts, e.2.balance = 0 :=
  ⟨by decide, C9_no_currency_creation [txIssue5, txW] (by decide)⟩

/-! ## C1: the Merkle proof round trip -/

namespace MerkleTree

theorem pairUp_length : ∀ l : List String, (pairUp l).length = l.length / 2
  | [] => rfl
  | [_] => by simp [pairUp]
  | _ :: _ :: rest => by
      simp only [pairUp, List.length_cons, pairUp_length rest]
      omega

theorem pairUp_getD : ∀ (l : List String) (i : Nat), 2 * i + 1 < l.length →
    (pairUp l).getD i "" = hashPair (l.getD (2 * i) "") (l.getD (2 * i + 1) "")
  | [], i, h => by simp at h
  | [_], i, h => by
      simp only [List.length_cons, List.length_nil] at h
      omega
  | a :: b :: rest, 0, _ => rfl
  | a :: b :: rest, i + 1, h => by
      have h' : 2 * i + 1 < rest.length := by
        simp only [List.length_cons] at h
        omega
      have ih := pairUp_getD rest i h'
      rw [show 2 * (i + 1) = 2 * i + 1 + 1 by ring]
      simp only [pairUp, List.getD_cons_succ]
      exact ih

theorem padLevel_length (l : List String) :
    (padLevel l).length = if l.length % 2 = 1 then l.length + 1 else l.length := by
  unfold padLevel
  by_cases h : l.length % 2 = 1 <;> simp [h]

theorem padLevel_getD (l : List String) (i : Nat) (h : i < l.length) :
    (padLevel l).getD i "" = l.getD i "" := by
  unfold padLevel
  by_cases hp : l.length % 2 = 1
  · simp only [hp, if_true]
    exact List.getD_append _ _ _ _ h
  · simp [hp]

theorem buildGo_cons2 (k : Nat) (a b : String) (rest : List String) :
    buildGo (k + 1) (a :: b :: rest) = buildGo k (pairUp (padLevel (a :: b :: rest))) := rfl

theorem buildGo_single (f : Nat) (x : String) : buildGo f [x] = x := by
  cases f <;> rfl

/-- The heart of C1: walking the generated proof from any in-range leaf
recomputes exactly the level-by-level root, at every fuel budget at least
the level length (one level per fuel unit suffices, since levels at least
halve). -/
theorem proofGo_fold : ∀ (fuel : Nat) (level : List String) (i : Nat),
    level.length ≤ fuel → i < level.length →
    foldProof (level.getD i "") (proofGo fuel level i) = buildGo fuel level := by
  intro fuel
  induction fuel with
  | zero =>
      intro level i hf hi
      omega
  | succ k ih =>
      intro level i hf hi
      match level with
      | [] => simp at hi
      | [x] =>
          have hi0 : i = 0 := by simp at hi; omega
          subst hi0
          have hp : proofGo (k + 1) [x] 0 = [] := by simp [proofGo]
          rw [hp, buildGo_single]
          rfl
      | a :: b :: rest =>
          have hlen2 : 2 ≤ (a :: b :: rest).length := by simp
          have hcond : ¬ ((a :: b :: rest).length ≤ 1) := by omega
          have hpad_len :
              (padLevel (a :: b :: rest)).length =
                (a :: b :: rest).length + (a :: b :: rest).length % 2 := by
            rw [padLevel_length]
            simp only [List.length_cons]
            by_cases hq : (rest.length + 1 + 1) % 2 = 1
            · simp [hq]
            · have hq0 : (rest.length + 1 + 1) % 2 = 0 := by omega
              simp [hq, hq0]
          have hlen' :
              (pairUp (padLevel (a :: b :: rest))).length =
                (padLevel (a :: b :: rest)).length / 2 := pairUp_length _
          have hfuel' : (pairUp (padLevel (a :: b :: rest))).length ≤ k := by
            rw [hlen', hpad_len]
            simp only [List.length_cons] at hf ⊢
            omega
          have hidx' : i / 2 < (pairUp (padLevel (a :: b :: rest))).length := by
            rw [hlen', hpad_len]
            simp only [List.length_cons] at hi ⊢
            omega
          by_cases hpar : i % 2 = 0
          · have hgo :
                proofGo (k + 1) (a :: b :: rest) i =
                  ((padLevel (a :: b :: rest)).getD (i + 1) "", Side.right) ::
                    proofGo k (pairUp (padLevel (a :: b :: rest))) (i / 2) := by
              simp [proofGo, hcond, hpar]
            have hsib : 2 * (i / 2) + 1 < (padLevel (a :: b :: rest)).length := by
              rw [hpad_len]
              simp only [List.length_cons] at hi ⊢
              omega
            have hpair := pairUp_getD (padLevel (a :: b :: rest)) (i / 2) hsib
            have h2i : 2 * (i / 2) = i := by omega
            rw [h2i] at hpair
            have hpad : (padLevel (a :: b :: rest)).getD i "" = (a :: b :: rest).getD i "" :=
              padLevel_getD _ _ hi
            rw [hgo]
            show foldProof
                (sha256Hex ((a :: b :: rest).getD i "" ++ (padLevel (a :: b :: rest)).getD (i + 1) ""))
                (proofGo k (pairUp (padLevel (a :: b :: rest))) (i / 2)) = _
            rw [buildGo_cons2]
            rw [← ih (pairUp (padLevel (a :: b :: rest))) (i / 2) hfuel' hidx']
            congr 1
            rw [hpair, ← hpad]
            rfl
          · have hgo :
                proofGo (k + 1) (a :: b :: rest) i =
                  ((padLevel (a :: b :: rest)).getD (i - 1) "", Side.left) ::
                    proofGo k (pairUp (padLevel (a :: b :: rest))) (i / 2) := by
              simp [proofGo, hcond, hpar]
            have hsib : 2 * (i / 2) + 1 < (padLevel (a :: b :: rest)).length := by
              rw [hpad_len]
              simp only [List.length_cons] at hi ⊢
              omega
            have hpair := pairUp_getD (padLevel (a :: b :: rest)) (i / 2) hsib
            have h2i : 2 * (i / 2) = i - 1 := by omega
            have h2i1 : 2 * (i / 2) + 1 = i := by omega
            rw [h2i1, h2i] at hpair
            have hpad : (padLevel (a :: b :: rest)).getD i "" = (a :: b :: rest).getD i "" :=
              padLevel_getD _ _ hi
            rw [hgo]
            show foldProof
                (sha256Hex ((padLevel (a :: b :: rest)).getD (i - 1) "" ++ (a :: b :: rest).getD i ""))
                (proofGo k (pairUp (padLevel (a :: b :: rest))) (i / 2)) = _
            rw [buildGo_cons2]
            rw [← ih (pairUp (padLevel (a :: b :: rest))) (i / 2) hfuel' hidx']
            congr 1
            rw [hpair, ← hpad]
            rfl

end MerkleTree

/-- C1 (amended): for every non-empty data list and every member h, the
proof generated for the STORED LEAF sha256(h) — the tree re-hashes its
inputs to form the leaf level — verifies against the Merkle root.  (The
claim as stated feeds h itself to get_proof, which returns None, see the
counterexample.) -/
theorem C1_merkle_roundtrip (data : List String) (h : String)
    (hne : data ≠ []) (hmem : h ∈ data) :
    ∃ (p : List (String × MerkleTree.Side)) (r : String),
      MerkleTree.get_proof data (sha256Hex h) = some p ∧
        MerkleTree.get_merkle_root data = some r ∧
        MerkleTree.verify_proof (sha256Hex h) p r = true := by
  have hleaf : sha256Hex h ∈ MerkleTree.leaves data :=
    List.mem_map_of_mem sha256Hex hmem
  have hidx :
      (MerkleTree.leaves data).indexOf (sha256Hex h) < (MerkleTree.leaves data).length :=
    List.indexOf_lt_length.mpr hleaf
  have hget :
      (MerkleTree.leaves data).getD ((MerkleTree.leaves data).indexOf (sha256Hex h)) "" =
        sha256Hex h := by
    rw [List.getD_eq_getElem (MerkleTree.leaves data) "" hidx]
    exact List.getElem_indexOf hidx
  refine ⟨MerkleTree.proofGo (MerkleTree.leaves data).length (MerkleTree.leaves data)
      ((MerkleTree.leaves data).indexOf (sha256Hex h)),
    MerkleTree.buildTree (MerkleTree.leaves data), ?_, ?_, ?_⟩
  · simp [MerkleTree.get_proof, hleaf]
  · simp [MerkleTree.get_merkle_root, hne]
  · have hfold :=
      MerkleTree.proofGo_fold (MerkleTree.leaves data).length (MerkleTree.leaves data)
        ((MerkleTree.leaves data).indexOf (sha256Hex h)) (Nat.le_refl _) hidx
    rw [hget] at hfold
    simp [MerkleTree.verify_proof, MerkleTree.buildTree, hfold]

/-- C1 counterexample: on the single-item list ["a"], the member "a" is not
among the stored leaves (the constructor re-hashes every input), so
get_proof returns None and the claimed verify_proof(h, get_proof(h), root)
= True composition fails (Python would raise iterating None). -/
theorem C1_original_counterexample :
    ("a" : String) ∈ ["a"] ∧ (["a"] : List String) ≠ [] ∧
      MerkleTree.get_proof ["a"] "a" = none :=
  ⟨by decide, by decide, by decide⟩

/-- Witness for C1 at a three-leaf tree (exercising the odd-level padding). -/
theorem C1_merkle_roundtrip_witness :
    (["a", "b", "c"] : List String) ≠ [] ∧ ("b" : String) ∈ ["a", "b", "c"] ∧
      ∃ (p : List (String × MerkleTree.Side)) (r : String),
        MerkleTree.get_proof ["a", "b", "c"] (sha256Hex "b") = some p ∧
          MerkleTree.get_merkle_root ["a", "b", "c"] = some r ∧
          MerkleTree.verify_proof (sha256Hex "b") p r = true :=
  ⟨by decide, by decide, C1_merkle_roundtrip ["a", "b", "c"] "b" (by decide) (by decide)⟩

end Budget
